import Mathlib

/-!
# Verification of the `storekey` order-preserving codec

A shallow embedding of the `storekey` serialization library.  Byte streams are
modelled as `List Nat` (each element a byte value `< 256`), the `Writer`'s
state is its `escape_zero : Bool` flag (output is returned functionally), and
the readers' state is the pair of the remaining input and the
`expect_escaped : Bool` flag.  Machine integers are modelled as `Nat` / `Int`
with explicit wrapping; floats are modelled by their IEEE-754 bit patterns.
-/

namespace Storekey

/-- The decoding error type of `src/lib.rs` (`DecodeError`).  `io` stands for
the `Io(_)` variant (for a slice-backed reader the only possible io error is
the `UnexpectedEof` raised by `read_exact`/`read`); the payload of `Custom` is
irrelevant to the claims and omitted. -/
inductive DErr where
  | io
  | unexpectedEnd
  | bytesRemaining
  | invalidFormat
  | utf8
  | custom
deriving DecidableEq, Repr

/-- Big-endian byte decomposition: `beBytes w n` is the list of the `w` bytes
of `n` taken most-significant first, i.e. the model of `to_be_bytes()` on a
`w`-byte unsigned integer. -/
def beBytes : Nat → Nat → List Nat
  | 0, _ => []
  | w + 1, n => (n / 256 ^ w % 256) :: beBytes w n

/-- Recompose a big-endian byte list into a number (model of
`from_be_bytes`). -/
def fromBe (l : List Nat) : Nat :=
  l.foldl (fun a b => 256 * a + b) 0

/-- Strict lexicographic order on byte strings: the order in which a sorted
key/value store keeps encoded keys (Rust's `Ord` on `[u8]`). -/
def lexLt : List Nat → List Nat → Bool
  | [], [] => false
  | [], _ :: _ => true
  | _ :: _, [] => false
  | a :: as, b :: bs => a < b || (a == b && lexLt as bs)

/-- Non-strict lexicographic order on byte strings. -/
def lexLe : List Nat → List Nat → Bool
  | [], _ => true
  | _ :: _, [] => false
  | a :: as, b :: bs => a < b || (a == b && lexLe as bs)

/-! ## The Writer (`src/writer.rs`)

The writer's only state is its `escape_zero` flag; each operation returns the
bytes it emits together with the flag it leaves behind.  `mark_terminator` is
modelled by calling the next operation with the flag set to `true`. -/
namespace Writer

/-- Rust `Writer::write_array`: consult and clear `escape_zero`, prepending a `0x01`
escape when the flag was set and the first byte is `≤ 1`; an empty array
returns early without touching the flag. -/
def writeArray (a : List Nat) (esc : Bool) : List Nat × Bool :=
  match a with
  | [] => ([], esc)
  | x :: _ => if esc then (if x ≤ 1 then 1 :: a else a, false) else (a, false)

/-- The loop of `Writer::write_slice`: each byte `≤ 1` is preceded by a `0x01`
escape. -/
def writeSliceLoop : List Nat → List Nat
  | [] => []
  | b :: rest => if b ≤ 1 then 1 :: b :: writeSliceLoop rest else b :: writeSliceLoop rest

/-- Rust `Writer::write_slice`: clear `escape_zero`, emit the escaped body, then a
terminal zero byte. -/
def writeSlice (s : List Nat) (_esc : Bool) : List Nat × Bool :=
  (writeSliceLoop s ++ [0], false)

/-- Rust `Writer::write_terminator`: emit a lone zero byte (the flag is not
touched). -/
def writeTerminator (esc : Bool) : List Nat × Bool :=
  ([0], esc)

/-- Rust `Writer::write_uN`: `write_array(v.to_be_bytes())` for a `w`-byte unsigned
integer. -/
def writeUInt (w v : Nat) (esc : Bool) : List Nat × Bool :=
  writeArray (beBytes w v) esc

/-- Two's-complement bit pattern of a signed integer of `w` bytes. -/
def intBits (w : Nat) (v : Int) : Nat :=
  (v % ((2 : Int) ^ (8 * w))).toNat

/-- Rust `Writer::write_iN`: `write_array((v ^ MIN).to_be_bytes())` — the sign bit
of the two's-complement pattern is flipped before the big-endian write. -/
def writeInt (w : Nat) (v : Int) (esc : Bool) : List Nat × Bool :=
  writeArray (beBytes w (intBits w v ^^^ 2 ^ (8 * w - 1))) esc

/-- The bit transformation of `Writer::write_f64` on the IEEE-754 bit pattern:
`v` is the pattern read as an `i64`, `t = (v >> 63) | i64::MIN` (so `t` is the
all-ones pattern for a negative `v` and the sign-bit-only pattern otherwise),
and the written pattern is `v ^ t`. -/
def f64enc (bits : Nat) : Nat :=
  if 2 ^ 63 ≤ bits then bits ^^^ (2 ^ 64 - 1) else bits ^^^ 2 ^ 63

/-- The bit transformation of `Writer::write_f32`, analogous to `f64enc`. -/
def f32enc (bits : Nat) : Nat :=
  if 2 ^ 31 ≤ bits then bits ^^^ (2 ^ 32 - 1) else bits ^^^ 2 ^ 31

/-- Rust `Writer::write_f64 = write_u64` of the transformed pattern. -/
def writeF64 (bits : Nat) (esc : Bool) : List Nat × Bool :=
  writeUInt 8 (f64enc bits) esc

/-- Rust `Writer::write_f32 = write_u32` of the transformed pattern. -/
def writeF32 (bits : Nat) (esc : Bool) : List Nat × Bool :=
  writeUInt 4 (f32enc bits) esc

end Writer

/-- Spec-side characterisation of the escaped body: for each byte in order, a
`0x01` prefix exactly when the byte is `≤ 0x01`, followed by the byte. -/
def escapeBytes (s : List Nat) : List Nat :=
  (s.map (fun b => if b ≤ 1 then [1, b] else [b])).flatten

/-- Scanner for the escape grammar: no bare `0x00` or `0x01` occurs (a `0x01`
always consumes the following byte as escaped data). -/
def noBareDelims : List Nat → Bool
  | [] => true
  | 1 :: _ :: rest => noBareDelims rest
  | 1 :: [] => false
  | 0 :: _ => false
  | _ :: rest => noBareDelims rest

/-! ## The readers (`src/reader.rs`)

Both readers are modelled over the same state: the remaining input bytes and
the `expect_escaped` flag.  `Reader` is the streaming reader instantiated at a
slice-backed `BufRead` source (where `read_exact` past the end of input raises
an `io::Error` of kind `UnexpectedEof`, wrapped as `DecodeError::Io`);
`BorrowReader` reads from the slice directly and raises `UnexpectedEnd`
itself. -/
/-- Reader state: remaining input and the `expect_escaped` flag. -/
abbrev RState := List Nat × Bool

/-- Model of Rust's UTF-8 validation (`String::from_utf8` / `str::from_utf8`),
per RFC 3629: rejects overlong forms, surrogates and code points above
`0x10FFFF`. -/
def utf8Valid : List Nat → Bool
  | [] => true
  | b :: rest =>
    if b ≤ 0x7F then utf8Valid rest
    else if 0xC2 ≤ b && b ≤ 0xDF then
      match rest with
      | c1 :: r => (0x80 ≤ c1 && c1 ≤ 0xBF) && utf8Valid r
      | [] => false
    else if 0xE0 ≤ b && b ≤ 0xEF then
      match rest with
      | c1 :: c2 :: r =>
        (if b = 0xE0 then 0xA0 ≤ c1 && c1 ≤ 0xBF
         else if b = 0xED then 0x80 ≤ c1 && c1 ≤ 0x9F
         else 0x80 ≤ c1 && c1 ≤ 0xBF)
          && (0x80 ≤ c2 && c2 ≤ 0xBF) && utf8Valid r
      | _ => false
    else if 0xF0 ≤ b && b ≤ 0xF4 then
      match rest with
      | c1 :: c2 :: c3 :: r =>
        (if b = 0xF0 then 0x90 ≤ c1 && c1 ≤ 0xBF
         else if b = 0xF4 then 0x80 ≤ c1 && c1 ≤ 0x8F
         else 0x80 ≤ c1 && c1 ≤ 0xBF)
          && (0x80 ≤ c2 && c2 ≤ 0xBF) && (0x80 ≤ c3 && c3 ≤ 0xBF) && utf8Valid r
      | _ => false
    else false

namespace Reader

/-- Rust `Reader::is_empty` (via `fill_buf`). -/
def isEmpty (s : RState) : Bool := s.1.isEmpty

/-- Rust `Reader::read_terminal`: set `expect_escaped`, then consume a leading zero
byte if present. -/
def readTerminal (s : RState) : Except DErr (Bool × RState) :=
  match s.1 with
  | [] => .error .unexpectedEnd
  | 0 :: rest => .ok (true, (rest, true))
  | _ :: _ => .ok (false, (s.1, true))

/-- Rust `read_exact` on a slice-backed `BufRead`: `n` bytes, or an `io::Error` of
kind `UnexpectedEof` (surfaced as `DecodeError::Io`). -/
def takeExact (n : Nat) (l : List Nat) : Except DErr (List Nat × List Nat) :=
  if n ≤ l.length then .ok (l.take n, l.drop n) else .error .io

/-- Rust `Reader::read_array`: when `expect_escaped` is set, read one byte first —
if it is not `0x01` it is the first data byte, otherwise it was an escape
prefix and is discarded; the flag is cleared. -/
def readArray (n : Nat) (s : RState) : Except DErr (List Nat × RState) :=
  match s with
  | (inp, true) =>
    match inp with
    | [] => .error .io
    | b :: rest =>
      if b = 1 then
        (takeExact n rest).map fun p => (p.1, (p.2, false))
      else
        (takeExact (n - 1) rest).map fun p => (b :: p.1, (p.2, false))
  | (inp, false) => (takeExact n inp).map fun p => (p.1, (p.2, false))

/-- The loop of `Reader::read_vec`: read byte by byte, treating `0x01` as an
escape prefix, until a bare zero terminator; a short read is
`UnexpectedEnd`. -/
def readVecLoop (acc : List Nat) : List Nat → Except DErr (List Nat × List Nat)
  | [] => .error .unexpectedEnd
  | 0 :: rest => .ok (acc, rest)
  | 1 :: rest =>
    match rest with
    | [] => .error .unexpectedEnd
    | c :: r2 => readVecLoop (acc ++ [c]) r2
  | b :: rest => readVecLoop (acc ++ [b]) rest

/-- Rust `Reader::read_vec`: clear `expect_escaped` and run the unescape loop. -/
def readVec (s : RState) : Except DErr (List Nat × RState) :=
  (readVecLoop [] s.1).map fun p => (p.1, (p.2, false))

/-- Rust `Reader::read_string`: `read_vec` followed by UTF-8 validation. -/
def readString (s : RState) : Except DErr (List Nat × RState) :=
  (readVec s).bind fun p => if utf8Valid p.1 then .ok p else .error .utf8

/-- Rust `Reader::read_uN` (`N = 8 * w` bits). -/
def readUInt (w : Nat) (s : RState) : Except DErr (Nat × RState) :=
  (readArray w s).map fun p => (fromBe p.1, p.2)

/-- Two's-complement reading of a `w`-byte pattern as a signed integer. -/
def intOfBits (w : Nat) (p : Nat) : Int :=
  if p < 2 ^ (8 * w - 1) then (p : Int) else (p : Int) - (2 : Int) ^ (8 * w)

/-- Rust `Reader::read_iN`: `from_be_bytes(..) ^ MIN` — read the pattern, flip the
sign bit back, and interpret in two's complement. -/
def readInt (w : Nat) (s : RState) : Except DErr (Int × RState) :=
  (readArray w s).map fun p => (intOfBits w (fromBe p.1 ^^^ 2 ^ (8 * w - 1)), p.2)

/-- The bit transformation of `read_f64`: with `v` the pattern just read,
`t = ((v ^ MIN) >> 63) | MIN`, returning `v ^ t`; at the pattern level `t` is
all-ones when the stored pattern has a clear top bit (the original float was
negative) and the sign-bit-only pattern otherwise. -/
def f64dec (u : Nat) : Nat :=
  if u < 2 ^ 63 then u ^^^ (2 ^ 64 - 1) else u ^^^ 2 ^ 63

/-- The bit transformation of `read_f32`, analogous to `f64dec`. -/
def f32dec (u : Nat) : Nat :=
  if u < 2 ^ 31 then u ^^^ (2 ^ 32 - 1) else u ^^^ 2 ^ 31

/-- Rust `Reader::read_f64` = `read_u64` then the inverse bit transformation. -/
def readF64 (s : RState) : Except DErr (Nat × RState) :=
  (readUInt 8 s).map fun p => (f64dec p.1, p.2)

/-- Rust `Reader::read_f32` = `read_u32` then the inverse bit transformation. -/
def readF32 (s : RState) : Except DErr (Nat × RState) :=
  (readUInt 4 s).map fun p => (f32dec p.1, p.2)

end Reader

/-- The borrow-or-copy return of `BorrowReader::read_cow` (`Cow<[u8]>`). -/
inductive RCow where
  | borrowed (bytes : List Nat)
  | owned (bytes : List Nat)
deriving DecidableEq, Repr

namespace BorrowReader

/-- Rust `BorrowReader::is_empty`. -/
def isEmpty (s : RState) : Bool := s.1.isEmpty

/-- Rust `BorrowReader::read_terminal`. -/
def readTerminal (s : RState) : Except DErr (Bool × RState) :=
  match s.1 with
  | [] => .error .unexpectedEnd
  | 0 :: rest => .ok (true, (rest, true))
  | _ :: _ => .ok (false, (s.1, true))

/-- Rust `BorrowReader::read_array`: when `expect_escaped` is set, peek the first
byte (failing with `UnexpectedEnd` on empty input) and advance past it if it
is a `0x01` escape; then take `SIZE` bytes, failing with `UnexpectedEnd` if
fewer remain. -/
def readArray (n : Nat) (s : RState) : Except DErr (List Nat × RState) :=
  match s with
  | (inp, true) =>
    match inp with
    | [] => .error .unexpectedEnd
    | b :: rest =>
      let inp2 := if b = 1 then rest else b :: rest
      if n ≤ inp2.length then .ok (inp2.take n, (inp2.drop n, false))
      else .error .unexpectedEnd
  | (inp, false) =>
    if n ≤ inp.length then .ok (inp.take n, (inp.drop n, false))
    else .error .unexpectedEnd

/-- The loop of `BorrowReader::read_into_vec`: identical unescaping discipline
to `Reader::read_vec`, pushing onto a caller-supplied buffer. -/
def readIntoVecLoop (acc : List Nat) : List Nat → Except DErr (List Nat × List Nat)
  | [] => .error .unexpectedEnd
  | 0 :: rest => .ok (acc, rest)
  | 1 :: rest =>
    match rest with
    | [] => .error .unexpectedEnd
    | c :: r2 => readIntoVecLoop (acc ++ [c]) r2
  | b :: rest => readIntoVecLoop (acc ++ [b]) rest

/-- Rust `BorrowReader::read_vec`: clear `expect_escaped`, unescape into a fresh
buffer. -/
def readVec (s : RState) : Except DErr (List Nat × RState) :=
  (readIntoVecLoop [] s.1).map fun p => (p.1, (p.2, false))

/-- Rust `BorrowReader::read_string`. -/
def readString (s : RState) : Except DErr (List Nat × RState) :=
  (readVec s).bind fun p => if utf8Valid p.1 then .ok p else .error .utf8

/-- The scan of `BorrowReader::read_cow`: walk forward over already-checked
bytes `pre`; on a bare `0x00` return the scanned prefix borrowed; on the first
`0x01` copy the prefix and the escaped byte into a fresh buffer and continue
with the `read_into_vec` loop; running out of input is `UnexpectedEnd`. -/
def readCowLoop (pre : List Nat) : List Nat → Except DErr (RCow × List Nat)
  | [] => .error .unexpectedEnd
  | 0 :: rest => .ok (.borrowed pre, rest)
  | 1 :: rest =>
    match rest with
    | [] => .error .unexpectedEnd
    | c :: r2 => (readIntoVecLoop (pre ++ [c]) r2).map fun p => (.owned p.1, p.2)
  | b :: rest => readCowLoop (pre ++ [b]) rest

/-- Rust `BorrowReader::read_cow`. -/
def readCow (s : RState) : Except DErr (RCow × RState) :=
  (readCowLoop [] s.1).map fun p => (p.1, (p.2, false))

/-- Rust `BorrowReader::read_str_cow`: `read_cow` with UTF-8 validation on either
variant, preserving borrowed-ness. -/
def readStrCow (s : RState) : Except DErr (RCow × RState) :=
  (readCow s).bind fun p =>
    match p.1 with
    | .borrowed x => if utf8Valid x then .ok (.borrowed x, p.2) else .error .utf8
    | .owned x => if utf8Valid x then .ok (.owned x, p.2) else .error .utf8

/-- Rust `BorrowReader::read_uN`. -/
def readUInt (w : Nat) (s : RState) : Except DErr (Nat × RState) :=
  (readArray w s).map fun p => (fromBe p.1, p.2)

/-- Rust `BorrowReader::read_iN`. -/
def readInt (w : Nat) (s : RState) : Except DErr (Int × RState) :=
  (readArray w s).map fun p => (Reader.intOfBits w (fromBe p.1 ^^^ 2 ^ (8 * w - 1)), p.2)

/-- Rust `BorrowReader::read_f64`. -/
def readF64 (s : RState) : Except DErr (Nat × RState) :=
  (readUInt 8 s).map fun p => (Reader.f64dec p.1, p.2)

/-- Rust `BorrowReader::read_f32`. -/
def readF32 (s : RState) : Except DErr (Nat × RState) :=
  (readUInt 4 s).map fun p => (Reader.f32dec p.1, p.2)

end BorrowReader

/-! ## Composite codecs and the top-level API (`src/encode.rs`, `src/lib.rs`) -/
/-- Rust `Encode for [E]` / `Vec<E>` (src/encode.rs): for each element call
`mark_terminator` (i.e. enter the element with the escape flag set) and encode
the element; after the last element `write_terminator`. -/
def encodeList (encE : α → Bool → List Nat × Bool) :
    List α → Bool → List Nat × Bool
  | [], esc => Writer.writeTerminator esc
  | e :: rest, _esc =>
    let p := encE e true
    let q := encodeList encE rest p.2
    (p.1 ++ q.1, q.2)

/-- Rust `Encode for u8` (src/encode.rs → `Writer::write_u8`). -/
def encU8 (v : Nat) (esc : Bool) : List Nat × Bool :=
  Writer.writeUInt 1 v esc

/-- Rust `Encode for Vec<u8>` through the generic element-wise `Vec<E>` impl. -/
def encVecU8 : List Nat → Bool → List Nat × Bool :=
  encodeList encU8

/-- Rust `Encode for Vec<Vec<u8>>`. -/
def encVecVecU8 : List (List Nat) → Bool → List Nat × Bool :=
  encodeList encVecU8

/-- Rust `Encode for Vec<Vec<Vec<u8>>>`. -/
def encVec3U8 : List (List (List Nat)) → Bool → List Nat × Bool :=
  encodeList encVecVecU8

/-- Rust `Decode for u8` (`Reader::read_u8`). -/
def decU8 (s : RState) : Except DErr (Nat × RState) :=
  Reader.readUInt 1 s

/-- Modelled from the spec: the `Decode` impl for `Vec<T>` is not under
`src/` (only its `Encode` counterpart in `src/encode.rs` and the loop pattern
documented on `src/lib.rs`'s `Decode` trait are).  Per spec §4.3, the decoder
repeatedly probes `read_terminal` and decodes one element while no terminator
is found.  `fuel` bounds the iteration; the wrapper passes `input length + 1`,
which is enough since every iteration consumes at least one byte. -/
def decodeListFuel (decE : RState → Except DErr (α × RState)) :
    Nat → RState → Except DErr (List α × RState)
  | 0, _ => .error .unexpectedEnd
  | fuel + 1, s =>
    (Reader.readTerminal s).bind fun p =>
      if p.1 then .ok ([], p.2)
      else
        (decE p.2).bind fun q =>
          (decodeListFuel decE fuel q.2).map fun r => (q.1 :: r.1, r.2)

/-- Modelled from the spec: `Decode for Vec<T>`, see `decodeListFuel`. -/
def decodeList (decE : RState → Except DErr (α × RState)) (s : RState) :
    Except DErr (List α × RState) :=
  decodeListFuel decE (s.1.length + 1) s

/-- Rust `Decode for Vec<u8>` through the element-wise list decoder. -/
def decVecU8 : RState → Except DErr (List Nat × RState) :=
  decodeList decU8

/-- Rust `Decode for Vec<Vec<u8>>`. -/
def decVecVecU8 : RState → Except DErr (List (List Nat) × RState) :=
  decodeList decVecU8

/-- Rust `storekey::decode` (src/lib.rs): run the root decoder on a fresh reader
and reject leftover input with `BytesRemaining`. -/
def topDecode (d : RState → Except DErr (α × RState)) (inp : List Nat) :
    Except DErr α :=
  match d (inp, false) with
  | .error e => .error e
  | .ok (v, s) => if Reader.isEmpty s then .ok v else .error .bytesRemaining

/-- Rust `storekey::decode_borrow` (src/lib.rs). -/
def topDecodeBorrow (d : RState → Except DErr (α × RState)) (inp : List Nat) :
    Except DErr α :=
  match d (inp, false) with
  | .error e => .error e
  | .ok (v, s) => if BorrowReader.isEmpty s then .ok v else .error .bytesRemaining

/-- Modelled from IEEE-754 semantics (what Rust's `f64` comparisons implement),
at the level of 64-bit patterns: a pattern is NaN when its magnitude exceeds
the all-ones-exponent pattern `0x7FF0…0` (infinity). -/
def f64IsNaN (b : Nat) : Bool := 0x7FF0000000000000 < b % 2 ^ 63

/-- Modelled from IEEE-754: `a == b` on `f64` — equal non-NaN patterns, or the
two oppositely-signed zeros; NaN is unequal to everything. -/
def f64Eq (a b : Nat) : Bool :=
  !f64IsNaN a && !f64IsNaN b
    && (a == b || (a % 2 ^ 63 == 0 && b % 2 ^ 63 == 0))

/-- Modelled from IEEE-754: `a < b` on `f64` — false if either is NaN; a
negative is below a non-negative unless both are zeros; within one sign the
magnitude order (reversed for negatives). -/
def f64Lt (a b : Nat) : Bool :=
  !f64IsNaN a && !f64IsNaN b
    && (if 2 ^ 63 ≤ a then
          if 2 ^ 63 ≤ b then decide (b % 2 ^ 63 < a % 2 ^ 63)
          else !(a % 2 ^ 63 == 0 && b % 2 ^ 63 == 0)
        else
          if 2 ^ 63 ≤ b then false
          else decide (a < b))

/-- Modelled from IEEE-754: `a <= b` on `f64`. -/
def f64Le (a b : Nat) : Bool := f64Lt a b || f64Eq a b

/-- Modelled from IEEE-754 semantics over 32-bit patterns (Rust's `f32`
comparisons): a pattern is NaN when its magnitude exceeds the
all-ones-exponent pattern `0x7F800000` (infinity). -/
def f32IsNaN (b : Nat) : Bool := 0x7F800000 < b % 2 ^ 31

/-- Modelled from IEEE-754: `a == b` on `f32` — equal non-NaN patterns, or
the two oppositely-signed zeros; NaN is unequal to everything. -/
def f32Eq (a b : Nat) : Bool :=
  !f32IsNaN a && !f32IsNaN b
    && (a == b || (a % 2 ^ 31 == 0 && b % 2 ^ 31 == 0))

/-- Modelled from IEEE-754: `a < b` on `f32` — false if either is NaN; a
negative is below a non-negative unless both are zeros; within one sign the
magnitude order (reversed for negatives). -/
def f32Lt (a b : Nat) : Bool :=
  !f32IsNaN a && !f32IsNaN b
    && (if 2 ^ 31 ≤ a then
          if 2 ^ 31 ≤ b then decide (b % 2 ^ 31 < a % 2 ^ 31)
          else !(a % 2 ^ 31 == 0 && b % 2 ^ 31 == 0)
        else
          if 2 ^ 31 ≤ b then false
          else decide (a < b))

/-- Modelled from IEEE-754: `a <= b` on `f32`. -/
def f32Le (a b : Nat) : Bool := f32Lt a b || f32Eq a b

/-! ## C7 — derived enum discriminants
(`storekey-derive/src/impls/encode.rs` / `decode.rs`) -/
/-- The discriminant write generated by `derive(Encode)` for an enum of `k`
variants: a single `u8` of the variant index shifted by `+2` when
`k ≤ 255 - 2`, otherwise an unshifted big-endian `u16` when `k ≤ u16::MAX`,
otherwise an unshifted `u32`. -/
def encEnumDisc (k idx : Nat) (esc : Bool) : List Nat × Bool :=
  if k ≤ 253 then Writer.writeUInt 1 (idx + 2) esc
  else if k ≤ 65535 then Writer.writeUInt 2 idx esc
  else Writer.writeUInt 4 idx esc

/-- The discriminant match generated by `derive(Decode)`: read the
discriminant in the width prescribed by the variant count, dispatch on the
per-variant literals (`idx + 2` in the one-byte format, `idx` otherwise), and
fall through to `DecodeError::InvalidFormat`. -/
def decEnumDisc (k : Nat) (s : RState) : Except DErr (Nat × RState) :=
  if k ≤ 253 then
    (Reader.readUInt 1 s).bind fun p =>
      if 2 ≤ p.1 ∧ p.1 < k + 2 then .ok (p.1 - 2, p.2) else .error .invalidFormat
  else if k ≤ 65535 then
    (Reader.readUInt 2 s).bind fun p =>
      if p.1 < k then .ok (p.1, p.2) else .error .invalidFormat
  else
    (Reader.readUInt 4 s).bind fun p =>
      if p.1 < k then .ok (p.1, p.2) else .error .invalidFormat

/-! ## C9 — escaped view equality (`src/types.rs`) -/
/-- The unescaping iterator `EscapedIter` (and, over code points,
`EscapedChars`): a `0x01` yields the following element instead of itself, or
ends the iteration when nothing follows. -/
def unescape : List Nat → List Nat
  | [] => []
  | 1 :: rest =>
    match rest with
    | [] => []
    | c :: r2 => c :: unescape r2
  | b :: rest => b :: unescape rest

/-- The comparison loop of `PartialEq<[u8]> for EscapedSlice` (and of
`PartialEq<str> for EscapedStr` over code points): elementwise equality, with
the comparand required to be exhausted exactly at the end. -/
def eqLoop : List Nat → List Nat → Bool
  | [], [] => true
  | [], _ :: _ => false
  | _ :: _, [] => false
  | a :: as, b :: bs => a == b && eqLoop as bs

/-- Rust `PartialEq<[u8]> for EscapedSlice`: iterate the view's unescaped bytes —
the raw bytes minus the final terminator — against the plain slice.
`PartialEq<str> for EscapedStr` is this same comparison over code points. -/
def escSliceEqBytes (raw other : List Nat) : Bool :=
  eqLoop (unescape raw.dropLast) other

/-- Rust `PartialEq for EscapedSlice` (view vs view) and `PartialEq for
EscapedStr`: the raw escaped contents are compared directly
(`self.0 == other.0`). -/
def escViewEqView (raw1 raw2 : List Nat) : Bool := raw1 == raw2

/-! ## C10 — Reader vs BorrowReader over the same bytes -/
/-- Agreement of the two readers' results up to the documented error-kind
difference: equal outcomes, or a truncation reported as `Io(UnexpectedEof)`
by the streaming reader and as `UnexpectedEnd` by the borrowing one. -/
def agreeUpToEof {α : Type} (x y : Except DErr α) : Prop :=
  x = y ∨ (x = .error .io ∧ y = .error .unexpectedEnd)

theorem lexLe_eq_not_lexLt (a b : List Nat) : lexLe a b = !lexLt b a := by
  induction a generalizing b with
  | nil => cases b <;> simp [lexLe, lexLt]
  | cons x as ih =>
    cases b with
    | nil => simp [lexLe, lexLt]
    | cons y bs =>
      simp only [lexLe, lexLt, ih bs]
      rcases Nat.lt_trichotomy x y with h | h | h
      · have h1 : ¬ y < x := by omega
        have h2 : y ≠ x := by omega
        simp [h, h1, h2]
      · subst h; simp [Nat.lt_irrefl]
      · have h1 : ¬ x < y := by omega
        have h2 : x ≠ y := by omega
        simp [h, h1, h2]

/-- Bit complement inside a fixed width: xoring with the all-ones pattern of
`n` bits maps `b` to `2^n - 1 - b`.  This is what `v ^ t` does to the bit
pattern of a negative float (`t = -1`). -/
theorem xor_all_ones {n b : Nat} (hb : b < 2 ^ n) :
    b ^^^ (2 ^ n - 1) = 2 ^ n - 1 - b := by
  apply Nat.eq_of_testBit_eq
  intro i
  have hsub : 2 ^ n - 1 - b = 2 ^ n - (b + 1) := by omega
  rw [Nat.testBit_xor, Nat.testBit_two_pow_sub_one, hsub,
    Nat.testBit_two_pow_sub_succ hb]
  by_cases h : i < n
  · simp [h]
  · have hbi : b.testBit i = false :=
      Nat.testBit_lt_two_pow (Nat.lt_of_lt_of_le hb (Nat.pow_le_pow_right (by omega) (by omega)))
    simp [h, hbi]

/-- Flipping the sign bit of a `k+1`-bit pattern whose top bit is clear adds
`2^k`: `b ^^^ 2^k = b + 2^k` when `b < 2^k`.  This is what `v ^ MIN` does to a
non-negative signed integer (and `v ^ t` to the pattern of a positive
float). -/
theorem xor_sign_bit {k b : Nat} (hb : b < 2 ^ k) :
    b ^^^ 2 ^ k = b + 2 ^ k := by
  apply Nat.eq_of_testBit_eq
  intro i
  rw [Nat.testBit_xor, Nat.add_comm b (2 ^ k)]
  rcases Nat.lt_trichotomy i k with h | h | h
  · rw [Nat.testBit_two_pow_add_gt h, Nat.testBit_two_pow_of_ne (by omega)]
    simp
  · subst h
    rw [Nat.testBit_two_pow_add_eq, Nat.testBit_two_pow_self,
      Nat.testBit_lt_two_pow hb]
    simp
  · have hlt : 2 ^ k + b < 2 ^ i := by
      have h2 : 2 ^ (k + 1) ≤ 2 ^ i := Nat.pow_le_pow_right (by omega) (by omega)
      have : 2 ^ (k + 1) = 2 ^ k + 2 ^ k := by rw [Nat.pow_succ]; omega
      omega
    rw [Nat.testBit_lt_two_pow hlt, Nat.testBit_two_pow_of_ne (by omega),
      Nat.testBit_lt_two_pow (Nat.lt_trans hb (by omega))]
    simp

theorem xor_cancel (a b : Nat) : (a ^^^ b) ^^^ b = a := by
  rw [Nat.xor_assoc, Nat.xor_self, Nat.xor_zero]

/-- Flipping the sign bit of a `k+1`-bit pattern whose top bit is set
subtracts `2^k`. -/
theorem xor_sign_bit_high {k b : Nat} (hlo : 2 ^ k ≤ b) (hhi : b < 2 ^ (k + 1)) :
    b ^^^ 2 ^ k = b - 2 ^ k := by
  have hb' : b - 2 ^ k < 2 ^ k := by
    have : 2 ^ (k + 1) = 2 ^ k + 2 ^ k := by rw [Nat.pow_succ]; omega
    omega
  have := xor_sign_bit hb'
  have hb : b = (b - 2 ^ k) + 2 ^ k := by omega
  calc b ^^^ 2 ^ k = ((b - 2 ^ k) ^^^ 2 ^ k) ^^^ 2 ^ k := by rw [this, ← hb]
    _ = b - 2 ^ k := xor_cancel _ _

theorem beBytes_mod (w : Nat) : ∀ a : Nat, beBytes w (a % 256 ^ w) = beBytes w a := by
  induction w with
  | zero => intro a; rfl
  | succ w ih =>
    intro a
    have hdvd : (256 : Nat) ^ w ∣ 256 ^ (w + 1) := pow_dvd_pow 256 (by omega)
    have hhead : a % 256 ^ (w + 1) / 256 ^ w % 256 = a / 256 ^ w % 256 := by
      have h : (256 : Nat) ^ (w + 1) = 256 ^ w * 256 := by ring
      rw [h, Nat.mod_mul_right_div_self, Nat.mod_mod_of_dvd _ dvd_rfl]
    have htail : beBytes w (a % 256 ^ (w + 1)) = beBytes w a := by
      rw [← ih (a % 256 ^ (w + 1)), Nat.mod_mod_of_dvd _ hdvd, ih]
    simp [beBytes, hhead, htail]

theorem fromBe_aux (w : Nat) :
    ∀ a acc : Nat, (beBytes w a).foldl (fun x b => 256 * x + b) acc
      = acc * 256 ^ w + a % 256 ^ w := by
  induction w with
  | zero => intro a acc; simp [beBytes, fromBe, Nat.mod_one]
  | succ w ih =>
    intro a acc
    have hd : a / 256 ^ w % 256 < 256 := Nat.mod_lt _ (by omega)
    have hmod : a % 256 ^ (w + 1) = a % 256 ^ w + 256 ^ w * (a / 256 ^ w % 256) :=
      Nat.mod_pow_succ
    simp only [beBytes, List.foldl_cons, ih]
    rw [hmod]; ring

/-- Rust `from_be_bytes ∘ to_be_bytes` is the identity on `w`-byte values. -/
theorem fromBe_beBytes {w a : Nat} (h : a < 256 ^ w) : fromBe (beBytes w a) = a := by
  have := fromBe_aux w a 0
  simp only [Nat.zero_mul, Nat.zero_add] at this
  rw [fromBe, this, Nat.mod_eq_of_lt h]

/-- Comparing two numbers is comparing their leading digits, then their
remainders. -/
theorem div_mod_lt_iff (P : Nat) (_hP : 0 < P) (a b : Nat) :
    a < b ↔ (a / P < b / P ∨ (a / P = b / P ∧ a % P < b % P)) := by
  constructor
  · intro h
    rcases Nat.lt_or_ge (a / P) (b / P) with hd | hd
    · exact Or.inl hd
    · have hd2 : a / P ≤ b / P := Nat.div_le_div_right (Nat.le_of_lt h)
      have hdeq : a / P = b / P := Nat.le_antisymm hd2 hd
      refine Or.inr ⟨hdeq, ?_⟩
      have h1 := Nat.div_add_mod a P
      have h2 := Nat.div_add_mod b P
      rw [← hdeq] at h2
      omega
  · rintro (hd | ⟨hdeq, hm⟩)
    · exact Nat.lt_of_div_lt_div hd
    · have h1 := Nat.div_add_mod a P
      have h2 := Nat.div_add_mod b P
      rw [← hdeq] at h2
      omega

/-- On `w`-byte big-endian encodings, strict lexicographic byte order is
numeric order. -/
theorem beBytes_lexLt (w : Nat) :
    ∀ a b : Nat, a < 256 ^ w → b < 256 ^ w →
      (lexLt (beBytes w a) (beBytes w b) = true ↔ a < b) := by
  induction w with
  | zero =>
    intro a b ha hb
    simp only [Nat.pow_zero, Nat.lt_one_iff] at ha hb
    subst ha; subst hb
    simp [beBytes, lexLt]
  | succ w ih =>
    intro a b ha hb
    have hda : a / 256 ^ w < 256 := by
      apply Nat.div_lt_of_lt_mul
      calc a < 256 ^ (w + 1) := ha
        _ = 256 ^ w * 256 := by ring
    have hdb : b / 256 ^ w < 256 := by
      apply Nat.div_lt_of_lt_mul
      calc b < 256 ^ (w + 1) := hb
        _ = 256 ^ w * 256 := by ring
    have hma : a % 256 ^ w < 256 ^ w := Nat.mod_lt _ (by positivity)
    have hmb : b % 256 ^ w < 256 ^ w := Nat.mod_lt _ (by positivity)
    have hiff : lexLt (beBytes w a) (beBytes w b) = true ↔ a % 256 ^ w < b % 256 ^ w := by
      rw [← beBytes_mod w a, ← beBytes_mod w b]
      exact ih _ _ hma hmb
    have key := div_mod_lt_iff (256 ^ w) (by positivity) a b
    simp only [beBytes, lexLt, Bool.or_eq_true, Bool.and_eq_true, beq_iff_eq,
      decide_eq_true_eq, Nat.mod_eq_of_lt hda, Nat.mod_eq_of_lt hdb, hiff]
    omega

/-- Non-strict version of `beBytes_lexLt`. -/
theorem beBytes_lexLe {w a b : Nat} (ha : a < 256 ^ w) (hb : b < 256 ^ w) :
    lexLe (beBytes w a) (beBytes w b) = true ↔ a ≤ b := by
  rw [lexLe_eq_not_lexLt, Bool.not_eq_true']
  rw [← Bool.not_eq_true (lexLt (beBytes w b) (beBytes w a))]
  constructor
  · intro h
    by_contra hab
    exact h ((beBytes_lexLt w b a hb ha).2 (by omega))
  · intro h hlt
    exact absurd ((beBytes_lexLt w b a hb ha).1 hlt) (by omega)

theorem writeSliceLoop_eq_escapeBytes (s : List Nat) :
    Writer.writeSliceLoop s = escapeBytes s := by
  induction s with
  | nil => rfl
  | cons b rest ih =>
    by_cases hb : b ≤ 1 <;>
      simp only [Writer.writeSliceLoop, escapeBytes, List.map_cons, List.flatten_cons,
        if_pos, if_neg, hb, ite_true, ite_false] <;>
      simp [escapeBytes] at ih ⊢ <;>
      simp [ih]

theorem noBareDelims_writeSliceLoop (s : List Nat) :
    noBareDelims (Writer.writeSliceLoop s) = true := by
  induction s with
  | nil => rfl
  | cons b rest ih =>
    by_cases hb : b ≤ 1
    · simp only [Writer.writeSliceLoop, if_pos hb, noBareDelims]
      exact ih
    · have hb2 : 2 ≤ b := by omega
      simp only [Writer.writeSliceLoop, if_neg hb]
      match b, hb2 with
      | n + 2, _ => exact ih

/-- The escape/terminator transformation preserves strict lexicographic
order. -/
theorem escTerm_lexLt : ∀ a b : List Nat,
    lexLt (Writer.writeSliceLoop a ++ [0]) (Writer.writeSliceLoop b ++ [0])
      = lexLt a b := by
  intro a
  induction a with
  | nil =>
    intro b
    cases b with
    | nil => rfl
    | cons y bs =>
      by_cases hy : y ≤ 1
      · simp [Writer.writeSliceLoop, lexLt, hy]
      · simp [Writer.writeSliceLoop, lexLt, hy]
        omega
  | cons x as ih =>
    intro b
    cases b with
    | nil =>
      by_cases hx : x ≤ 1
      · simp [Writer.writeSliceLoop, hx, lexLt]
      · have h0 : (x == 0) = false := beq_eq_false_iff_ne.mpr (by omega)
        have h1 : ¬ x < 0 := by omega
        simp [Writer.writeSliceLoop, hx, lexLt, h0, h1]
    | cons y bs =>
      by_cases hx : x ≤ 1 <;> by_cases hy : y ≤ 1
      · simp [Writer.writeSliceLoop, hx, hy, lexLt, ih bs]
      · have h1 : (1 : Nat) < y := by omega
        have h2 : x < y := by omega
        simp [Writer.writeSliceLoop, hx, hy, lexLt, h1, h2]
      · have h1 : ¬ x < 1 := by omega
        have h2 : (x == 1) = false := beq_eq_false_iff_ne.mpr (by omega)
        have h3 : ¬ x < y := by omega
        have h4 : (x == y) = false := beq_eq_false_iff_ne.mpr (by omega)
        simp [Writer.writeSliceLoop, hx, hy, lexLt, h1, h2, h3, h4]
      · simp [Writer.writeSliceLoop, hx, hy, lexLt, ih bs]

/-! ## C1 — round-trip `decode(encode(v)) == v` -/
/-- Claim C1 (code bug): the round-trip property cannot hold, because `encode`
is not even injective on `Vec<Vec<Vec<u8>>>`.  `write_terminator` never
consults the pending `mark_terminator` flag, so the encoding of an inner empty
vector is a bare `0x00` that is indistinguishable from the terminator of the
enclosing vector: the distinct values `[[[]]]` and `[[], []]` both encode to
`[0x00, 0x00, 0x00]`.  No decoder can map this byte string back to both
values, so `decode(encode(v)) == v` fails on the code. -/
theorem c1_encode_not_injective :
    encVec3U8 [[[]]] false = encVec3U8 [[], []] false ∧
    ([[[]]] : List (List (List Nat))) ≠ [[], []] ∧
    encVec3U8 [[[]]] false = ([0, 0, 0], true) := by
  refine ⟨rfl, by decide, rfl⟩

/-! ## C3 — re-encode `encode(decode(b)) == b` for encoder-produced `b` -/
/-- Claim C3 (code bug): `b = [0x00, 0x00]` is produced by encoding
`vec![vec![]] : Vec<Vec<u8>>`, but decoding `b` at that type fails with
`BytesRemaining`: the root decoder takes the first bare `0x00` (the encoding
of the inner empty vector, left unescaped by `write_terminator`) as the outer
terminator and stops after one byte.  Hence re-encoding the decode of `b`
cannot reproduce `b`. -/
theorem c3_reencode_impossible :
    encVecVecU8 [[]] false = ([0, 0], true) ∧
    topDecode decVecVecU8 [0, 0] = .error .bytesRemaining := by
  exact ⟨rfl, rfl⟩

/-! ## C5 — `Writer::write_slice` -/
/-- Claim C5: for every byte slice `s` and any prior pending-escape state,
`write_slice` emits, for each byte in order, a `0x01` prefix exactly when the
byte is `≤ 0x01` followed by the byte, then one final `0x00`; the body
contains no bare `0x00`/`0x01` (grammar `noBareDelims`), and
`[0x00, 0x01]` encodes to `[0x01, 0x00, 0x01, 0x01, 0x00]`. -/
theorem c5_write_slice (s : List Nat) (f : Bool) :
    Writer.writeSlice s f = (escapeBytes s ++ [0], false) ∧
    noBareDelims (escapeBytes s) = true ∧
    Writer.writeSlice [0, 1] f = ([1, 0, 1, 1, 0], false) := by
  refine ⟨?_, ?_, rfl⟩
  · simp [Writer.writeSlice, writeSliceLoop_eq_escapeBytes]
  · rw [← writeSliceLoop_eq_escapeBytes]
    exact noBareDelims_writeSliceLoop s

/-! ## C4 — float bit transformation -/
theorem beBytes_length (w : Nat) : ∀ n : Nat, (beBytes w n).length = w := by
  induction w with
  | zero => intro n; rfl
  | succ w ih => intro n; simp [beBytes, ih]

/-- A fixed-size array written by `Writer::write_array` under flag `f` is read
back exactly by `Reader::read_array` under the same flag, consuming nothing of
the remaining stream. -/
theorem readArray_writeArray (a : List Nat) (f : Bool) (rest : List Nat)
    (h : a ≠ []) :
    Reader.readArray a.length ((Writer.writeArray a f).1 ++ rest, f)
      = .ok (a, (rest, false)) := by
  match a, h with
  | x :: t, _ =>
    have hlen : (x :: t).length ≤ ((x :: t) ++ rest).length := by
      simp [List.length_append]
    have htake : ((x :: t) ++ rest).take (x :: t).length = x :: t :=
      List.take_left _ _
    have hdrop : ((x :: t) ++ rest).drop (x :: t).length = rest :=
      List.drop_left _ _
    cases f with
    | false =>
      simp [Writer.writeArray, Reader.readArray, Reader.takeExact,
        hlen, htake, hdrop, Except.map]
    | true =>
      by_cases hx : x ≤ 1
      · simp [Writer.writeArray, hx, List.cons_append, Reader.readArray,
          Reader.takeExact, hlen, htake, hdrop, Except.map]
      · have hx1 : x ≠ 1 := by omega
        have hlen2 : (x :: t).length - 1 ≤ (t ++ rest).length := by
          simp [List.length_append]
        have htake2 : (t ++ rest).take ((x :: t).length - 1) = t := by
          simp
        have hdrop2 : (t ++ rest).drop ((x :: t).length - 1) = rest := by
          simp
        simp [Writer.writeArray, hx, List.cons_append, Reader.readArray, hx1,
          Reader.takeExact, hlen2, htake2, hdrop2, Except.map]

theorem f64dec_f64enc {b : Nat} (h : b < 2 ^ 64) :
    Reader.f64dec (Writer.f64enc b) = b := by
  rw [Writer.f64enc]
  by_cases hb : 2 ^ 63 ≤ b
  · rw [if_pos hb]
    have he : b ^^^ (2 ^ 64 - 1) = 2 ^ 64 - 1 - b := xor_all_ones h
    have hlt : b ^^^ (2 ^ 64 - 1) < 2 ^ 63 := by
      rw [he]
      have h1 : (2 : Nat) ^ 64 = 2 ^ 63 + 2 ^ 63 := by norm_num
      omega
    rw [Reader.f64dec, if_pos hlt, xor_cancel]
  · rw [if_neg hb]
    have hb' : b < 2 ^ 63 := by omega
    have he : b ^^^ 2 ^ 63 = b + 2 ^ 63 := xor_sign_bit hb'
    have hge : ¬ (b ^^^ 2 ^ 63) < 2 ^ 63 := by rw [he]; omega
    rw [Reader.f64dec, if_neg hge, xor_cancel]

theorem f32dec_f32enc {b : Nat} (h : b < 2 ^ 32) :
    Reader.f32dec (Writer.f32enc b) = b := by
  rw [Writer.f32enc]
  by_cases hb : 2 ^ 31 ≤ b
  · rw [if_pos hb]
    have he : b ^^^ (2 ^ 32 - 1) = 2 ^ 32 - 1 - b := xor_all_ones h
    have hlt : b ^^^ (2 ^ 32 - 1) < 2 ^ 31 := by
      rw [he]
      have h1 : (2 : Nat) ^ 32 = 2 ^ 31 + 2 ^ 31 := by norm_num
      omega
    rw [Reader.f32dec, if_pos hlt, xor_cancel]
  · rw [if_neg hb]
    have hb' : b < 2 ^ 31 := by omega
    have he : b ^^^ 2 ^ 31 = b + 2 ^ 31 := xor_sign_bit hb'
    have hge : ¬ (b ^^^ 2 ^ 31) < 2 ^ 31 := by rw [he]; omega
    rw [Reader.f32dec, if_neg hge, xor_cancel]

theorem f64enc_lt {b : Nat} (h : b < 2 ^ 64) : Writer.f64enc b < 2 ^ 64 := by
  rw [Writer.f64enc]
  by_cases hb : 2 ^ 63 ≤ b
  · rw [if_pos hb]
    exact Nat.xor_lt_two_pow h (by norm_num)
  · rw [if_neg hb]
    exact Nat.xor_lt_two_pow h (by norm_num)

theorem f32enc_lt {b : Nat} (h : b < 2 ^ 32) : Writer.f32enc b < 2 ^ 32 := by
  rw [Writer.f32enc]
  by_cases hb : 2 ^ 31 ≤ b
  · rw [if_pos hb]
    exact Nat.xor_lt_two_pow h (by norm_num)
  · rw [if_neg hb]
    exact Nat.xor_lt_two_pow h (by norm_num)

/-- Claim C4: `write_f64`/`write_f32` emit the big-endian bytes of `v ^ t` with
`t = (v >> (W-1)) | SIGN_BIT` (this is the definition of
`Writer.f64enc`/`f32enc`), and reading the encoding back — under any matching
escape-flag state and with any stream continuation — returns the identical
bit pattern; in particular the encoding is a function of the bit pattern, so
it is deterministic for every NaN. -/
theorem c4_float_bits (b64 b32 : Nat) (f : Bool) (rest : List Nat)
    (h64 : b64 < 2 ^ 64) (h32 : b32 < 2 ^ 32) :
    Writer.writeF64 b64 false = (beBytes 8 (Writer.f64enc b64), false) ∧
    Reader.readF64 ((Writer.writeF64 b64 f).1 ++ rest, f)
      = .ok (b64, (rest, false)) ∧
    Writer.writeF32 b32 false = (beBytes 4 (Writer.f32enc b32), false) ∧
    Reader.readF32 ((Writer.writeF32 b32 f).1 ++ rest, f)
      = .ok (b32, (rest, false)) := by
  have hne64 : beBytes 8 (Writer.f64enc b64) ≠ [] := by
    intro hcon
    have := beBytes_length 8 (Writer.f64enc b64)
    rw [hcon] at this
    simp at this
  have hne32 : beBytes 4 (Writer.f32enc b32) ≠ [] := by
    intro hcon
    have := beBytes_length 4 (Writer.f32enc b32)
    rw [hcon] at this
    simp at this
  have hfrom64 : fromBe (beBytes 8 (Writer.f64enc b64)) = Writer.f64enc b64 := by
    apply fromBe_beBytes
    have := f64enc_lt h64
    norm_num
    omega
  have hfrom32 : fromBe (beBytes 4 (Writer.f32enc b32)) = Writer.f32enc b32 := by
    apply fromBe_beBytes
    have := f32enc_lt h32
    norm_num
    omega
  refine ⟨?_, ?_, ?_, ?_⟩
  · simp [Writer.writeF64, Writer.writeUInt, Writer.writeArray]
    cases hb : beBytes 8 (Writer.f64enc b64) with
    | nil => exact absurd hb hne64
    | cons x t => rfl
  · have harr := readArray_writeArray (beBytes 8 (Writer.f64enc b64)) f rest hne64
    rw [beBytes_length] at harr
    simp only [Reader.readF64, Reader.readUInt, Writer.writeF64, Writer.writeUInt,
      harr, Except.map, hfrom64, f64dec_f64enc h64]
  · simp [Writer.writeF32, Writer.writeUInt, Writer.writeArray]
    cases hb : beBytes 4 (Writer.f32enc b32) with
    | nil => exact absurd hb hne32
    | cons x t => rfl
  · have harr := readArray_writeArray (beBytes 4 (Writer.f32enc b32)) f rest hne32
    rw [beBytes_length] at harr
    simp only [Reader.readF32, Reader.readUInt, Writer.writeF32, Writer.writeUInt,
      harr, Except.map, hfrom32, f32dec_f32enc h32]

/-- Witness for `c4_float_bits` at the bit pattern of `-1.5f64`
(`0xBFF8000000000000`) and `1.0f32` (`0x3F800000`). -/
theorem c4_float_bits_witness :
    Reader.readF64 ((Writer.writeF64 0xBFF8000000000000 true).1 ++ [7], true)
      = .ok (0xBFF8000000000000, ([7], false)) :=
  (c4_float_bits 0xBFF8000000000000 0x3F800000 true [7]
    (by norm_num) (by norm_num)).2.1

/-! ## C2 — order preservation -/
theorem writeArray_false (a : List Nat) : (Writer.writeArray a false).1 = a := by
  cases a <;> simp [Writer.writeArray]

theorem writeUInt_bytes (w v : Nat) : (Writer.writeUInt w v false).1 = beBytes w v := by
  rw [Writer.writeUInt, writeArray_false]

/-- Flipping the sign bit of a two's-complement pattern translates the signed
value range `[-2^k, 2^k)` monotonically onto `[0, 2^(k+1))` by adding `2^k`. -/
theorem intBits_xor_sign {k : Nat} {v : Int} (h1 : -(2:Int) ^ k ≤ v)
    (h2 : v < 2 ^ k) :
    (v % ((2:Int) ^ (k + 1))).toNat ^^^ 2 ^ k = (v + 2 ^ k).toNat := by
  have hcast : (((2:Nat) ^ k : Nat) : Int) = (2:Int) ^ k := by push_cast; ring
  have hsum : (2:Int) ^ (k + 1) = 2 ^ k + 2 ^ k := by ring
  have hposk : (0:Int) < 2 ^ k := by positivity
  rcases le_or_lt 0 v with hv | hv
  · have hv2 : v < (2:Int) ^ (k + 1) := by rw [hsum]; omega
    have hmod : v % ((2:Int) ^ (k + 1)) = v := Int.emod_eq_of_lt hv hv2
    rw [hmod]
    have hlt : v.toNat < 2 ^ k := by omega
    rw [xor_sign_bit hlt]
    omega
  · have hmod : v % ((2:Int) ^ (k + 1)) = v + 2 ^ (k + 1) := by
      have h3 : v % ((2:Int) ^ (k + 1)) = (v + 2 ^ (k + 1)) % (2 ^ (k + 1)) := by
        rw [Int.add_emod_self]
      rw [h3]
      apply Int.emod_eq_of_lt (by rw [hsum]; omega) (by rw [hsum]; omega)
    rw [hmod]
    have hcast2 : (2:Int) ^ (k + 1) = (((2:Nat) ^ (k + 1) : Nat) : Int) := by
      push_cast; ring
    have hsum2 : (2:Nat) ^ (k + 1) = 2 ^ k + 2 ^ k := by ring
    have hlo : 2 ^ k ≤ (v + 2 ^ (k + 1)).toNat := by
      rw [hcast2] at *
      omega
    have hhi : (v + 2 ^ (k + 1)).toNat < 2 ^ (k + 1) := by
      rw [hcast2] at *
      omega
    rw [xor_sign_bit_high hlo hhi]
    rw [hcast2] at *
    omega

/-- The bytes written by `write_iN` with a clear escape flag: the big-endian
bytes of the value shifted up by the sign bit. -/
theorem writeInt_bytes {w : Nat} {v : Int} (h1 : -(2:Int) ^ (8 * (w + 1) - 1) ≤ v)
    (h2 : v < 2 ^ (8 * (w + 1) - 1)) :
    (Writer.writeInt (w + 1) v false).1
      = beBytes (w + 1) ((v + 2 ^ (8 * (w + 1) - 1)).toNat) := by
  rw [Writer.writeInt, writeArray_false, Writer.intBits]
  have hk : 8 * (w + 1) = (8 * (w + 1) - 1) + 1 := by omega
  have hx := intBits_xor_sign (k := 8 * (w + 1) - 1) h1 h2
  rw [← hk] at hx
  rw [hx]

/-- The escape/terminator transformation preserves non-strict lexicographic
order as well. -/
theorem escTerm_lexLe (a b : List Nat) :
    lexLe (Writer.writeSliceLoop a ++ [0]) (Writer.writeSliceLoop b ++ [0])
      = lexLe a b := by
  rw [lexLe_eq_not_lexLt, lexLe_eq_not_lexLt, escTerm_lexLt]

/-- Arithmetic characterisation of the float bit transformation: negatives
are complemented, non-negatives get the sign bit added. -/
theorem f64enc_char {b : Nat} (h : b < 2 ^ 64) :
    Writer.f64enc b = if 2 ^ 63 ≤ b then 2 ^ 64 - 1 - b else b + 2 ^ 63 := by
  rw [Writer.f64enc]
  by_cases hb : 2 ^ 63 ≤ b
  · rw [if_pos hb, if_pos hb, xor_all_ones h]
  · rw [if_neg hb, if_neg hb, xor_sign_bit (by omega)]

theorem f64Lt_imp_enc {a b : Nat} (ha : a < 2 ^ 64) (hb : b < 2 ^ 64)
    (h : f64Lt a b = true) : Writer.f64enc a < Writer.f64enc b := by
  rw [f64enc_char ha, f64enc_char hb]
  unfold f64Lt at h
  by_cases hsa : 2 ^ 63 ≤ a <;> by_cases hsb : 2 ^ 63 ≤ b
  · simp only [hsa, hsb, if_true, ite_true, Bool.and_eq_true, decide_eq_true_eq] at h
    simp only [hsa, hsb, if_true, ite_true]
    omega
  · simp only [hsa, hsb, if_true, if_false, ite_true, ite_false]
    omega
  · simp only [hsa, hsb, if_true, if_false, ite_true, ite_false,
      Bool.and_eq_true] at h
    exact absurd h.2 (by simp)
  · simp only [hsa, hsb, if_false, ite_false, Bool.and_eq_true,
      decide_eq_true_eq] at h
    simp only [hsa, hsb, if_false, ite_false]
    omega

theorem f64Eq_cases {a b : Nat} (h : f64Eq a b = true) :
    a = b ∨ (a % 2 ^ 63 = 0 ∧ b % 2 ^ 63 = 0) := by
  simp only [f64Eq, Bool.and_eq_true, Bool.or_eq_true, beq_iff_eq] at h
  tauto

theorem f64Eq_refl {a : Nat} (hna : f64IsNaN a = false) : f64Eq a a = true := by
  simp [f64Eq, hna]

theorem bothZero_beq_false {a b : Nat} (hz : ¬(a % 2 ^ 63 = 0 ∧ b % 2 ^ 63 = 0)) :
    (a % 2 ^ 63 == 0 && b % 2 ^ 63 == 0) = false := by
  by_cases h1 : a % 2 ^ 63 = 0
  · rw [Bool.and_eq_false_iff]
    right
    exact beq_eq_false_iff_ne.mpr fun h2 => hz ⟨h1, h2⟩
  · rw [Bool.and_eq_false_iff]
    left
    exact beq_eq_false_iff_ne.mpr h1

theorem f64_trichotomy {a b : Nat} (ha : a < 2 ^ 64) (hb : b < 2 ^ 64)
    (hna : f64IsNaN a = false) (hnb : f64IsNaN b = false) :
    f64Lt a b = true ∨ f64Eq a b = true ∨ f64Lt b a = true := by
  unfold f64Lt f64Eq
  simp only [hna, hnb, Bool.not_false, Bool.true_and]
  by_cases hsa : 2 ^ 63 ≤ a <;> by_cases hsb : 2 ^ 63 ≤ b <;>
    simp only [hsa, hsb, if_true, if_false, ite_true, ite_false,
      decide_eq_true_eq, Bool.or_eq_true, Bool.and_eq_true, beq_iff_eq,
      Bool.not_eq_true', Bool.and_eq_false_iff, beq_eq_false_iff_ne, ne_eq,
      Bool.false_eq_true, or_false, false_or] <;>
    omega

/-- Non-strict float comparison agrees with the encoded order, provided the
pair is not the two oppositely-signed zeros. -/
theorem f64Le_iff_enc {a b : Nat} (ha : a < 2 ^ 64) (hb : b < 2 ^ 64)
    (hna : f64IsNaN a = false) (hnb : f64IsNaN b = false)
    (hz : ¬(a % 2 ^ 63 = 0 ∧ b % 2 ^ 63 = 0 ∧ a ≠ b)) :
    f64Le a b = true ↔ Writer.f64enc a ≤ Writer.f64enc b := by
  constructor
  · intro h
    simp only [f64Le, Bool.or_eq_true] at h
    rcases h with hlt | heq
    · exact Nat.le_of_lt (f64Lt_imp_enc ha hb hlt)
    · rcases f64Eq_cases heq with rfl | hzz
      · exact Nat.le_refl _
      · have : a = b := by
          by_contra hne
          exact hz ⟨hzz.1, hzz.2, hne⟩
        subst this; exact Nat.le_refl _
  · intro h
    simp only [f64Le, Bool.or_eq_true]
    rcases f64_trichotomy ha hb hna hnb with hlt | heq | hgt
    · exact Or.inl hlt
    · exact Or.inr heq
    · exact absurd (f64Lt_imp_enc hb ha hgt) (by omega)

/-- Arithmetic characterisation of the 32-bit float bit transformation,
mirroring `f64enc_char`. -/
theorem f32enc_char {b : Nat} (h : b < 2 ^ 32) :
    Writer.f32enc b = if 2 ^ 31 ≤ b then 2 ^ 32 - 1 - b else b + 2 ^ 31 := by
  rw [Writer.f32enc]
  by_cases hb : 2 ^ 31 ≤ b
  · rw [if_pos hb, if_pos hb, xor_all_ones h]
  · rw [if_neg hb, if_neg hb, xor_sign_bit (by omega)]

theorem f32Lt_imp_enc {a b : Nat} (ha : a < 2 ^ 32) (hb : b < 2 ^ 32)
    (h : f32Lt a b = true) : Writer.f32enc a < Writer.f32enc b := by
  rw [f32enc_char ha, f32enc_char hb]
  unfold f32Lt at h
  by_cases hsa : 2 ^ 31 ≤ a <;> by_cases hsb : 2 ^ 31 ≤ b
  · simp only [hsa, hsb, if_true, ite_true, Bool.and_eq_true, decide_eq_true_eq] at h
    simp only [hsa, hsb, if_true, ite_true]
    omega
  · simp only [hsa, hsb, if_true, if_false, ite_true, ite_false]
    omega
  · simp only [hsa, hsb, if_true, if_false, ite_true, ite_false,
      Bool.and_eq_true] at h
    exact absurd h.2 (by simp)
  · simp only [hsa, hsb, if_false, ite_false, Bool.and_eq_true,
      decide_eq_true_eq] at h
    simp only [hsa, hsb, if_false, ite_false]
    omega

theorem f32Eq_cases {a b : Nat} (h : f32Eq a b = true) :
    a = b ∨ (a % 2 ^ 31 = 0 ∧ b % 2 ^ 31 = 0) := by
  simp only [f32Eq, Bool.and_eq_true, Bool.or_eq_true, beq_iff_eq] at h
  tauto

theorem f32_trichotomy {a b : Nat} (ha : a < 2 ^ 32) (hb : b < 2 ^ 32)
    (hna : f32IsNaN a = false) (hnb : f32IsNaN b = false) :
    f32Lt a b = true ∨ f32Eq a b = true ∨ f32Lt b a = true := by
  unfold f32Lt f32Eq
  simp only [hna, hnb, Bool.not_false, Bool.true_and]
  by_cases hsa : 2 ^ 31 ≤ a <;> by_cases hsb : 2 ^ 31 ≤ b <;>
    simp only [hsa, hsb, if_true, if_false, ite_true, ite_false,
      decide_eq_true_eq, Bool.or_eq_true, Bool.and_eq_true, beq_iff_eq,
      Bool.not_eq_true', Bool.and_eq_false_iff, beq_eq_false_iff_ne, ne_eq,
      Bool.false_eq_true, or_false, false_or] <;>
    omega

/-- Non-strict 32-bit float comparison agrees with the encoded order,
provided the pair is not the two oppositely-signed zeros. -/
theorem f32Le_iff_enc {a b : Nat} (ha : a < 2 ^ 32) (hb : b < 2 ^ 32)
    (hna : f32IsNaN a = false) (hnb : f32IsNaN b = false)
    (hz : ¬(a % 2 ^ 31 = 0 ∧ b % 2 ^ 31 = 0 ∧ a ≠ b)) :
    f32Le a b = true ↔ Writer.f32enc a ≤ Writer.f32enc b := by
  constructor
  · intro h
    simp only [f32Le, Bool.or_eq_true] at h
    rcases h with hlt | heq
    · exact Nat.le_of_lt (f32Lt_imp_enc ha hb hlt)
    · rcases f32Eq_cases heq with rfl | hzz
      · exact Nat.le_refl _
      · have : a = b := by
          by_contra hne
          exact hz ⟨hzz.1, hzz.2, hne⟩
        subst this; exact Nat.le_refl _
  · intro h
    simp only [f32Le, Bool.or_eq_true]
    rcases f32_trichotomy ha hb hna hnb with hlt | heq | hgt
    · exact Or.inl hlt
    · exact Or.inr heq
    · exact absurd (f32Lt_imp_enc hb ha hgt) (by omega)

/-- The escaped body of the element-wise `Vec<u8>` encoding: each element is
written through `write_array` with the terminator mark set, so bytes `≤ 1`
get an escape prefix and the whole is `0x00`-terminated — byte-identical to
`write_slice`. -/
theorem encVecU8_bytes (l : List Nat) (hl : ∀ x ∈ l, x < 256) :
    ∀ esc : Bool, (encVecU8 l esc).1 = Writer.writeSliceLoop l ++ [0] := by
  induction l with
  | nil => intro esc; rfl
  | cons x t ih =>
    intro esc
    have hx256 : x < 256 := hl x (List.mem_cons_self _ _)
    have ht : ∀ y ∈ t, y < 256 := fun y hy => hl y (List.mem_cons_of_mem _ hy)
    have hxm : x / 256 ^ 0 % 256 = x := by
      simp [Nat.mod_eq_of_lt hx256]
    have hih := ih ht false
    simp only [encVecU8, encodeList] at hih ⊢
    by_cases hx : x ≤ 1
    · simp only [encU8, Writer.writeUInt, beBytes, hxm, Writer.writeArray, if_pos hx]
      simp [hih, Writer.writeSliceLoop, hx]
    · simp only [encU8, Writer.writeUInt, beBytes, hxm, Writer.writeArray, if_neg hx]
      simp [hih, Writer.writeSliceLoop, hx]

/-- Claim C2 counterexample: for `a = +0.0` (pattern `0`) and `b = -0.0`
(pattern `2^63`), both non-NaN, `a ≤ b` holds (IEEE equality of zeros) but the
encoding of `a` is lexicographically above the encoding of `b`, so the claimed
iff fails for floats. -/
theorem c2_zero_pair_counterexample :
    f64Le 0 (2 ^ 63) = true ∧
    f64IsNaN 0 = false ∧ f64IsNaN (2 ^ 63) = false ∧
    lexLe (Writer.writeF64 0 false).1 (Writer.writeF64 (2 ^ 63) false).1 = false := by
  refine ⟨by decide, by decide, by decide, by decide⟩

/-- Claim C2 amended: the order-preservation iff holds for every fixed-width
unsigned and signed integer type, for `String`/`write_slice` bodies and for
the element-wise `Vec<u8>` encoding; for floats (both `f64` and `f32`) it
holds for non-NaN values except the pair of oppositely-signed zeros (which
compare equal but encode differently); and the encoding of `[255u8]` sorts
above that of `[0u8, 1u8]`. -/
theorem c2_order_preservation :
    (∀ w a b : Nat, a < 256 ^ (w + 1) → b < 256 ^ (w + 1) →
      (lexLe (Writer.writeUInt (w + 1) a false).1
          (Writer.writeUInt (w + 1) b false).1 = true ↔ a ≤ b)) ∧
    (∀ (w : Nat) (a b : Int),
      -(2:Int) ^ (8 * (w + 1) - 1) ≤ a → a < 2 ^ (8 * (w + 1) - 1) →
      -(2:Int) ^ (8 * (w + 1) - 1) ≤ b → b < 2 ^ (8 * (w + 1) - 1) →
      (lexLe (Writer.writeInt (w + 1) a false).1
          (Writer.writeInt (w + 1) b false).1 = true ↔ a ≤ b)) ∧
    (∀ (a b : List Nat) (f g : Bool),
      lexLe (Writer.writeSlice a f).1 (Writer.writeSlice b g).1 = lexLe a b) ∧
    (∀ a b : List Nat, (∀ x ∈ a, x < 256) → (∀ x ∈ b, x < 256) →
      ∀ f g : Bool, lexLe (encVecU8 a f).1 (encVecU8 b g).1 = lexLe a b) ∧
    (∀ a b : Nat, a < 2 ^ 64 → b < 2 ^ 64 →
      f64IsNaN a = false → f64IsNaN b = false →
      ¬(a % 2 ^ 63 = 0 ∧ b % 2 ^ 63 = 0 ∧ a ≠ b) →
      (lexLe (Writer.writeF64 a false).1 (Writer.writeF64 b false).1 = true
        ↔ f64Le a b = true)) ∧
    (∀ a b : Nat, a < 2 ^ 32 → b < 2 ^ 32 →
      f32IsNaN a = false → f32IsNaN b = false →
      ¬(a % 2 ^ 31 = 0 ∧ b % 2 ^ 31 = 0 ∧ a ≠ b) →
      (lexLe (Writer.writeF32 a false).1 (Writer.writeF32 b false).1 = true
        ↔ f32Le a b = true)) ∧
    lexLt (encVecU8 [0, 1] false).1 (encVecU8 [255] false).1 = true := by
  refine ⟨?_, ?_, ?_, ?_, ?_, ?_, by decide⟩
  · intro w a b ha hb
    rw [writeUInt_bytes, writeUInt_bytes]
    exact beBytes_lexLe ha hb
  · intro w a b ha1 ha2 hb1 hb2
    rw [writeInt_bytes ha1 ha2, writeInt_bytes hb1 hb2]
    have hk : 8 * (w + 1) = (8 * (w + 1) - 1) + 1 := by omega
    have hcast : (((2:Nat) ^ (8 * (w + 1) - 1) : Nat) : Int)
        = (2:Int) ^ (8 * (w + 1) - 1) := by push_cast; ring
    have hpow : (256 : Nat) ^ (w + 1) = 2 ^ (8 * (w + 1)) := by
      rw [pow_mul]; norm_num
    have hsum : (2:Nat) ^ (8 * (w + 1)) = 2 ^ (8 * (w + 1) - 1) + 2 ^ (8 * (w + 1) - 1) := by
      conv_lhs => rw [hk]
      rw [pow_succ]; omega
    have hba : (a + 2 ^ (8 * (w + 1) - 1)).toNat < 256 ^ (w + 1) := by
      rw [hpow]; omega
    have hbb : (b + 2 ^ (8 * (w + 1) - 1)).toNat < 256 ^ (w + 1) := by
      rw [hpow]; omega
    rw [beBytes_lexLe hba hbb]
    omega
  · intro a b f g
    simp only [Writer.writeSlice]
    exact escTerm_lexLe a b
  · intro a b ha hb f g
    rw [encVecU8_bytes a ha f, encVecU8_bytes b hb g]
    exact escTerm_lexLe a b
  · intro a b ha hb hna hnb hz
    have hea : (Writer.writeF64 a false).1 = beBytes 8 (Writer.f64enc a) := by
      rw [Writer.writeF64, writeUInt_bytes]
    have heb : (Writer.writeF64 b false).1 = beBytes 8 (Writer.f64enc b) := by
      rw [Writer.writeF64, writeUInt_bytes]
    have h256 : (256 : Nat) ^ 8 = 2 ^ 64 := by norm_num
    have hba : Writer.f64enc a < 256 ^ 8 := by rw [h256]; exact f64enc_lt ha
    have hbb : Writer.f64enc b < 256 ^ 8 := by rw [h256]; exact f64enc_lt hb
    rw [hea, heb, beBytes_lexLe hba hbb]
    exact (f64Le_iff_enc ha hb hna hnb hz).symm
  · intro a b ha hb hna hnb hz
    have hea : (Writer.writeF32 a false).1 = beBytes 4 (Writer.f32enc a) := by
      rw [Writer.writeF32, writeUInt_bytes]
    have heb : (Writer.writeF32 b false).1 = beBytes 4 (Writer.f32enc b) := by
      rw [Writer.writeF32, writeUInt_bytes]
    have h256 : (256 : Nat) ^ 4 = 2 ^ 32 := by norm_num
    have hba : Writer.f32enc a < 256 ^ 4 := by rw [h256]; exact f32enc_lt ha
    have hbb : Writer.f32enc b < 256 ^ 4 := by rw [h256]; exact f32enc_lt hb
    rw [hea, heb, beBytes_lexLe hba hbb]
    exact (f32Le_iff_enc ha hb hna hnb hz).symm

/-- Witness for `c2_order_preservation`: instances of the unsigned, signed,
`Vec<u8>`, `f64` and `f32` parts at concrete values. -/
theorem c2_order_preservation_witness :
    (lexLe (Writer.writeUInt 1 3 false).1 (Writer.writeUInt 1 7 false).1 = true
      ↔ (3:Nat) ≤ 7) ∧
    (lexLe (Writer.writeInt 1 (-1) false).1 (Writer.writeInt 1 1 false).1 = true
      ↔ (-1:Int) ≤ 1) ∧
    (lexLe (encVecU8 [0, 1] false).1 (encVecU8 [255] false).1
      = lexLe [0, 1] [255]) ∧
    (lexLe (Writer.writeF64 0 false).1
        (Writer.writeF64 (2 ^ 63 + 2 ^ 52) false).1 = true
      ↔ f64Le 0 (2 ^ 63 + 2 ^ 52) = true) ∧
    (lexLe (Writer.writeF32 0 false).1
        (Writer.writeF32 (2 ^ 31 + 2 ^ 22) false).1 = true
      ↔ f32Le 0 (2 ^ 31 + 2 ^ 22) = true) := by
  refine ⟨c2_order_preservation.1 0 3 7 (by norm_num) (by norm_num),
    c2_order_preservation.2.1 0 (-1) 1 (by norm_num) (by norm_num)
      (by norm_num) (by norm_num),
    c2_order_preservation.2.2.2.1 [0, 1] [255] (by decide) (by decide) false false,
    c2_order_preservation.2.2.2.2.1 0 (2 ^ 63 + 2 ^ 52) (by norm_num) (by norm_num)
      (by decide) (by decide) (by decide),
    c2_order_preservation.2.2.2.2.2.1 0 (2 ^ 31 + 2 ^ 22) (by norm_num) (by norm_num)
      (by decide) (by decide) (by decide)⟩

/-! ## C6 — the zero-copy `read_cow` path -/
theorem readIntoVecLoop_escaped (s : List Nat) :
    ∀ buf rest : List Nat,
      BorrowReader.readIntoVecLoop buf (escapeBytes s ++ 0 :: rest)
        = .ok (buf ++ s, rest) := by
  induction s with
  | nil => intro buf rest; simp [escapeBytes, BorrowReader.readIntoVecLoop]
  | cons b s' ih =>
    intro buf rest
    by_cases hb : b ≤ 1
    · have hesc : escapeBytes (b :: s') = 1 :: b :: escapeBytes s' := by
        simp [escapeBytes, hb]
      rw [hesc, List.cons_append, List.cons_append,
        BorrowReader.readIntoVecLoop, ih]
      simp
    · obtain ⟨n, rfl⟩ : ∃ n, b = n + 2 := ⟨b - 2, by omega⟩
      have hesc : escapeBytes ((n + 2) :: s') = (n + 2) :: escapeBytes s' := by
        simp [escapeBytes, hb]
      rw [hesc, List.cons_append, BorrowReader.readIntoVecLoop, ih]
      · simp
      · omega
      · omega

theorem readCowLoop_escaped (s : List Nat) :
    ∀ pre rest : List Nat,
      BorrowReader.readCowLoop pre (escapeBytes s ++ 0 :: rest)
        = .ok ((if s.all (fun b => decide (2 ≤ b)) then RCow.borrowed (pre ++ s)
                else RCow.owned (pre ++ s)), rest) := by
  induction s with
  | nil =>
    intro pre rest
    simp [escapeBytes, BorrowReader.readCowLoop]
  | cons b s' ih =>
    intro pre rest
    by_cases hb : b ≤ 1
    · have hesc : escapeBytes (b :: s') = 1 :: b :: escapeBytes s' := by
        simp [escapeBytes, hb]
      have hall : (b :: s').all (fun x => decide (2 ≤ x)) = false := by
        simp [List.all_cons]
        omega
      rw [hesc, List.cons_append, List.cons_append, BorrowReader.readCowLoop,
        readIntoVecLoop_escaped s' (pre ++ [b]) rest, hall]
      simp [Except.map]
    · obtain ⟨n, rfl⟩ : ∃ n, b = n + 2 := ⟨b - 2, by omega⟩
      have hesc : escapeBytes ((n + 2) :: s') = (n + 2) :: escapeBytes s' := by
        simp [escapeBytes, hb]
      have hall : ((n + 2) :: s').all (fun x => decide (2 ≤ x))
          = s'.all (fun x => decide (2 ≤ x)) := by
        simp [List.all_cons]
      rw [hesc, List.cons_append, BorrowReader.readCowLoop, ih (pre ++ [n + 2]) rest,
        hall]
      · cases hs : s'.all (fun x => decide (2 ≤ x)) <;> simp [hs]
      · omega
      · omega

theorem mem_one_escapeBytes (s : List Nat) :
    (1 ∈ escapeBytes s) ↔ s.all (fun b => decide (2 ≤ b)) = false := by
  induction s with
  | nil => simp [escapeBytes]
  | cons b s' ih =>
    by_cases hb : b ≤ 1
    · have hesc : escapeBytes (b :: s') = 1 :: b :: escapeBytes s' := by
        simp [escapeBytes, hb]
      rw [hesc]
      simp [List.all_cons]
      omega
    · have hesc : escapeBytes (b :: s') = b :: escapeBytes s' := by
        simp [escapeBytes, hb]
      have hb1 : (1:Nat) ≠ b := by omega
      have hb2 : 2 ≤ b := by omega
      rw [hesc]
      simp [List.all_cons, ih, hb1, hb2]

/-- Claim C6: on an input starting with a valid encoded variable-length
sequence (body of `s`, escaped, then the bare terminator), `read_cow` returns
`Cow::Borrowed` exactly when no `0x01` occurs before the terminator (i.e. all
bytes of `s` are `≥ 2`) and `Cow::Owned` otherwise; in both cases the
returned bytes are the unescaped body `s`, the terminator is consumed and the
rest of the input is untouched.  `read_str_cow` behaves identically on UTF-8
bodies. -/
theorem c6_read_cow (s rest : List Nat) (f : Bool) :
    BorrowReader.readCow (escapeBytes s ++ 0 :: rest, f)
      = .ok ((if s.all (fun b => decide (2 ≤ b)) then RCow.borrowed s
              else RCow.owned s), (rest, false)) ∧
    ((1 ∈ escapeBytes s) ↔ s.all (fun b => decide (2 ≤ b)) = false) ∧
    (utf8Valid s = true →
      BorrowReader.readStrCow (escapeBytes s ++ 0 :: rest, f)
        = .ok ((if s.all (fun b => decide (2 ≤ b)) then RCow.borrowed s
                else RCow.owned s), (rest, false))) := by
  have hcow : BorrowReader.readCow (escapeBytes s ++ 0 :: rest, f)
      = .ok ((if s.all (fun b => decide (2 ≤ b)) then RCow.borrowed s
              else RCow.owned s), (rest, false)) := by
    rw [BorrowReader.readCow]
    show (BorrowReader.readCowLoop [] (escapeBytes s ++ 0 :: rest)).map _ = _
    rw [readCowLoop_escaped s [] rest]
    cases hall : s.all (fun b => decide (2 ≤ b)) <;> simp [hall, Except.map]
  refine ⟨hcow, mem_one_escapeBytes s, fun hutf => ?_⟩
  rw [BorrowReader.readStrCow, hcow]
  cases hall : s.all (fun b => decide (2 ≤ b)) <;> simp [hall, hutf, Except.bind]

/-- Witness for `c6_read_cow` at `s = [104, 0]` (one escaped byte, so the
owned path) with stream continuation `[9]`. -/
theorem c6_read_cow_witness :
    BorrowReader.readStrCow ([104, 1, 0, 0, 9], true)
      = .ok (RCow.owned [104, 0], ([9], false)) := by
  have h := (c6_read_cow [104, 0] [9] true).2.2 (by decide)
  simpa using h

/-- Reading a `w`-byte unsigned integer directly after its big-endian bytes
(no escape flag pending). -/
theorem readUInt_beBytes {w v : Nat} (h : v < 256 ^ w) (rest : List Nat) :
    Reader.readUInt w (beBytes w v ++ rest, false) = .ok (v, (rest, false)) := by
  have hfrom := fromBe_beBytes h
  have hlen := beBytes_length w v
  generalize hL : beBytes w v = L at hfrom hlen ⊢
  rw [← hlen]
  simp [Reader.readUInt, Reader.readArray, Reader.takeExact, List.take_left,
    List.drop_left, Except.map, hfrom, List.length_append]

/-- Claim C7: for a derived enum of `k ≥ 1` variants and a variant index
`idx < k`: with `k ≤ 253` the encoder emits the single byte `idx + 2` and the
decoder inverts it; with `253 < k ≤ 65535` a 2-byte big-endian unshifted
discriminant; with `k > 65535` a 4-byte one; decoding always returns `idx`,
and any discriminant value matching no variant yields `InvalidFormat`. -/
theorem c7_enum_discriminant (k idx : Nat) (rest : List Nat)
    (hk : 1 ≤ k) (hk32 : k ≤ 2 ^ 32) (hidx : idx < k) :
    (k ≤ 253 → encEnumDisc k idx false = ([idx + 2], false)) ∧
    (253 < k → k ≤ 65535 → encEnumDisc k idx false = (beBytes 2 idx, false)) ∧
    (65535 < k → encEnumDisc k idx false = (beBytes 4 idx, false)) ∧
    decEnumDisc k ((encEnumDisc k idx false).1 ++ rest, false)
      = .ok (idx, (rest, false)) ∧
    (∀ d, d < 256 → ¬(2 ≤ d ∧ d < k + 2) → k ≤ 253 →
      decEnumDisc k (d :: rest, false) = .error .invalidFormat) ∧
    (∀ d, d < 256 ^ 2 → k ≤ d → 253 < k → k ≤ 65535 →
      decEnumDisc k (beBytes 2 d ++ rest, false) = .error .invalidFormat) ∧
    (∀ d, d < 256 ^ 4 → k ≤ d → 65535 < k →
      decEnumDisc k (beBytes 4 d ++ rest, false) = .error .invalidFormat) := by
  have henc1 : ∀ h : k ≤ 253, encEnumDisc k idx false = ([idx + 2], false) := by
    intro h
    have : idx + 2 < 256 := by omega
    simp [encEnumDisc, h, Writer.writeUInt, beBytes, Writer.writeArray,
      Nat.mod_eq_of_lt this]
  have hpair : ∀ a : List Nat, Writer.writeArray a false = (a, false) := by
    intro a; cases a <;> simp [Writer.writeArray]
  refine ⟨henc1, ?_, ?_, ?_, ?_, ?_, ?_⟩
  · intro h1 h2
    rw [encEnumDisc, if_neg (by omega), if_pos h2, Writer.writeUInt, hpair]
  · intro h1
    rw [encEnumDisc, if_neg (by omega), if_neg (by omega), Writer.writeUInt, hpair]
  · by_cases h1 : k ≤ 253
    · rw [henc1 h1]
      have hix : idx + 2 < 256 ^ 1 := by norm_num; omega
      have hread := readUInt_beBytes hix rest
      have hbe : beBytes 1 (idx + 2) = [idx + 2] := by
        simp [beBytes, Nat.mod_eq_of_lt (show idx + 2 < 256 by omega)]
      rw [hbe] at hread
      rw [decEnumDisc, if_pos h1, hread]
      simp only [Except.bind]
      rw [if_pos ⟨by omega, by omega⟩]
      simp
    · by_cases h2 : k ≤ 65535
      · rw [encEnumDisc, if_neg h1, if_pos h2, Writer.writeUInt, writeArray_false,
          decEnumDisc, if_neg h1, if_pos h2,
          readUInt_beBytes (show idx < 256 ^ 2 by norm_num; omega) rest]
        simp only [Except.bind]
        rw [if_pos hidx]
      · rw [encEnumDisc, if_neg h1, if_neg h2, Writer.writeUInt, writeArray_false,
          decEnumDisc, if_neg h1, if_neg h2,
          readUInt_beBytes (show idx < 256 ^ 4 by norm_num; omega) rest]
        simp only [Except.bind]
        rw [if_pos hidx]
  · intro d hd hrange h1
    have hbe : beBytes 1 d = [d] := by
      simp [beBytes, Nat.mod_eq_of_lt hd]
    have hread := readUInt_beBytes (show d < 256 ^ 1 by norm_num; omega) rest
    rw [hbe] at hread
    simp only [List.singleton_append] at hread
    rw [decEnumDisc, if_pos h1, hread]
    simp only [Except.bind]
    rw [if_neg hrange]
  · intro d hd hrange h1 h2
    rw [decEnumDisc, if_neg (by omega), if_pos h2, readUInt_beBytes hd rest]
    simp only [Except.bind]
    rw [if_neg (by omega)]
  · intro d hd hrange h1
    rw [decEnumDisc, if_neg (by omega), if_neg (by omega), readUInt_beBytes hd rest]
    simp only [Except.bind]
    rw [if_neg (by omega)]

/-- Witness for `c7_enum_discriminant`: an enum of 3 variants, variant 2,
round-trips through the byte `0x04`, and the unknown byte `0x05` is
rejected. -/
theorem c7_enum_discriminant_witness :
    decEnumDisc 3 ((encEnumDisc 3 2 false).1 ++ [9], false)
      = .ok (2, ([9], false)) ∧
    decEnumDisc 3 ([5] ++ [9], false) = .error .invalidFormat := by
  refine ⟨(c7_enum_discriminant 3 2 [9] (by decide) (by norm_num) (by decide)).2.2.2.1, ?_⟩
  exact (c7_enum_discriminant 3 2 [9] (by decide) (by norm_num) (by decide)).2.2.2.2.1 5
    (by decide) (by decide) (by decide)

/-! ## C8 — top-level `decode` / `decode_borrow` -/
/-- Claim C8: for any root decoder that never itself reports `BytesRemaining`
(true of every codec in the library — only the top level produces it), the
top-level `decode` and `decode_borrow` return `BytesRemaining` precisely when
the root succeeds with unread input left; return the decoded value when the
root succeeds and consumes everything; and propagate every root error
unchanged. -/
theorem c8_top_level {α : Type} (d : RState → Except DErr (α × RState))
    (hno : ∀ s, d s ≠ .error .bytesRemaining) (inp : List Nat) :
    ((topDecode d inp = .error .bytesRemaining ↔
      ∃ v rem f2, d (inp, false) = .ok (v, (rem, f2)) ∧ rem ≠ []) ∧
     (∀ v rem f2, d (inp, false) = .ok (v, (rem, f2)) → rem = [] →
        topDecode d inp = .ok v) ∧
     (∀ e, d (inp, false) = .error e → topDecode d inp = .error e)) ∧
    ((topDecodeBorrow d inp = .error .bytesRemaining ↔
      ∃ v rem f2, d (inp, false) = .ok (v, (rem, f2)) ∧ rem ≠ []) ∧
     (∀ v rem f2, d (inp, false) = .ok (v, (rem, f2)) → rem = [] →
        topDecodeBorrow d inp = .ok v) ∧
     (∀ e, d (inp, false) = .error e → topDecodeBorrow d inp = .error e)) := by
  cases hd : d (inp, false) with
  | error e =>
    have hne : e ≠ .bytesRemaining := fun hcon => hno (inp, false) (hcon ▸ hd)
    refine ⟨⟨?_, ?_, ?_⟩, ⟨?_, ?_, ?_⟩⟩ <;>
      simp [topDecode, topDecodeBorrow, hd, hne]
  | ok p =>
    rcases p with ⟨v, rem, f2⟩
    by_cases hrem : rem = []
    · subst hrem
      refine ⟨⟨?_, ?_, ?_⟩, ⟨?_, ?_, ?_⟩⟩ <;>
        simp [topDecode, topDecodeBorrow, hd, Reader.isEmpty, BorrowReader.isEmpty]
    · refine ⟨⟨?_, ?_, ?_⟩, ⟨?_, ?_, ?_⟩⟩ <;>
        simp [topDecode, topDecodeBorrow, hd, Reader.isEmpty, BorrowReader.isEmpty,
          hrem] <;>
        exact ⟨v, rem, ⟨rfl, rfl⟩, hrem⟩

/-- Rust `Reader::read_u8` can fail only with an io error, never with
`BytesRemaining`. -/
theorem decU8_not_bytesRemaining (s : RState) :
    decU8 s ≠ .error .bytesRemaining := by
  rcases s with ⟨inp, fl⟩
  intro h
  cases fl with
  | false =>
    simp only [decU8, Reader.readUInt, Reader.readArray, Reader.takeExact] at h
    split at h <;> simp [Except.map] at h
  | true =>
    cases inp with
    | nil => simp [decU8, Reader.readUInt, Reader.readArray, Except.map] at h
    | cons b rest =>
      simp only [decU8, Reader.readUInt, Reader.readArray, Reader.takeExact] at h
      split at h <;> split at h <;> simp [Except.map] at h

/-- Witness for `c8_top_level`: decoding `[5, 7]` as a single `u8` leaves one
byte unread and reports `BytesRemaining`. -/
theorem c8_top_level_witness :
    topDecode decU8 [5, 7] = .error .bytesRemaining := by
  exact (c8_top_level decU8 decU8_not_bytesRemaining [5, 7]).1.1.mpr
    ⟨5, [7], false, rfl, by decide⟩

theorem eqLoop_iff : ∀ a b : List Nat, eqLoop a b = true ↔ a = b := by
  intro a
  induction a with
  | nil => intro b; cases b <;> simp [eqLoop]
  | cons x as ih =>
    intro b
    cases b with
    | nil => simp [eqLoop]
    | cons y bs => simp [eqLoop, ih bs]

theorem unescape_escapeBytes (s : List Nat) : unescape (escapeBytes s) = s := by
  induction s with
  | nil => rfl
  | cons b s' ih =>
    by_cases hb : b ≤ 1
    · have hesc : escapeBytes (b :: s') = 1 :: b :: escapeBytes s' := by
        simp [escapeBytes, hb]
      rw [hesc, unescape, ih]
    · obtain ⟨n, rfl⟩ : ∃ n, b = n + 2 := ⟨b - 2, by omega⟩
      have hesc : escapeBytes ((n + 2) :: s') = (n + 2) :: escapeBytes s' := by
        simp [escapeBytes, hb]
      rw [hesc, unescape, ih]
      omega

theorem escapeBytes_injective {s1 s2 : List Nat} (h : escapeBytes s1 = escapeBytes s2) :
    s1 = s2 := by
  have := unescape_escapeBytes s1
  rw [h, unescape_escapeBytes] at this
  exact this.symm

/-- Claim C9: on valid escaped views — raw contents of the canonical form
`escapeBytes s ++ [0x00]` — equality against a plain byte slice (and, over
code points, against a plain `str`) holds iff the unescaped contents equal
the comparand, and view-vs-view equality holds iff the unescaped logical
contents are equal, even though it is implemented as raw byte comparison:
the canonical escaped form is injective in the contents. -/
theorem c9_escaped_equality (s1 s2 other : List Nat) :
    (escSliceEqBytes (escapeBytes s1 ++ [0]) other = true ↔ s1 = other) ∧
    (escViewEqView (escapeBytes s1 ++ [0]) (escapeBytes s2 ++ [0]) = true
      ↔ s1 = s2) := by
  constructor
  · rw [escSliceEqBytes, List.dropLast_concat, unescape_escapeBytes]
    exact eqLoop_iff s1 other
  · rw [escViewEqView]
    constructor
    · intro h
      have h2 : escapeBytes s1 ++ [0] = escapeBytes s2 ++ [0] := by
        exact beq_iff_eq.mp h
      exact escapeBytes_injective (List.append_cancel_right h2)
    · intro h
      subst h
      exact beq_iff_eq.mpr rfl

theorem agree_map {α β : Type} (g : α → β) {x y : Except DErr α}
    (h : agreeUpToEof x y) : agreeUpToEof (Except.map g x) (Except.map g y) := by
  rcases h with rfl | ⟨hx, hy⟩
  · exact Or.inl rfl
  · right
    rw [hx, hy]
    exact ⟨rfl, rfl⟩

theorem vecLoop_eq_aux : ∀ (n : Nat) (l acc : List Nat), l.length ≤ n →
    Reader.readVecLoop acc l = BorrowReader.readIntoVecLoop acc l := by
  intro n
  induction n with
  | zero =>
    intro l acc hl
    have : l = [] := List.length_eq_zero.mp (by omega)
    subst this
    rfl
  | succ n ih =>
    intro l acc hl
    match l with
    | [] => rfl
    | 0 :: rest => rfl
    | 1 :: [] => rfl
    | 1 :: c :: r2 =>
      rw [Reader.readVecLoop, BorrowReader.readIntoVecLoop]
      exact ih r2 (acc ++ [c]) (by simp at hl ⊢; omega)
    | (b + 2) :: rest =>
      rw [Reader.readVecLoop, BorrowReader.readIntoVecLoop]
      · exact ih rest (acc ++ [b + 2]) (by simp at hl ⊢; omega)
      · omega
      · omega
      · omega
      · omega

theorem readVecLoop_eq (l acc : List Nat) :
    Reader.readVecLoop acc l = BorrowReader.readIntoVecLoop acc l :=
  vecLoop_eq_aux l.length l acc (Nat.le_refl _)

theorem readVec_eq (s : RState) : Reader.readVec s = BorrowReader.readVec s := by
  rw [Reader.readVec, BorrowReader.readVec, readVecLoop_eq]

theorem readArray_agree (n : Nat) (inp : List Nat) (f : Bool) :
    agreeUpToEof (Reader.readArray (n + 1) (inp, f))
      (BorrowReader.readArray (n + 1) (inp, f)) := by
  cases f with
  | false =>
    by_cases hlen : n + 1 ≤ inp.length
    · left
      simp [Reader.readArray, BorrowReader.readArray, Reader.takeExact, hlen,
        Except.map]
    · right
      constructor <;>
        simp [Reader.readArray, BorrowReader.readArray, Reader.takeExact, hlen,
          Except.map]
  | true =>
    cases inp with
    | nil => exact Or.inr ⟨rfl, rfl⟩
    | cons b rest =>
      by_cases hb : b = 1
      · subst hb
        by_cases hlen : n + 1 ≤ rest.length
        · left
          simp [Reader.readArray, BorrowReader.readArray, Reader.takeExact, hlen,
            Except.map]
        · right
          constructor <;>
            simp [Reader.readArray, BorrowReader.readArray, Reader.takeExact, hlen,
              Except.map]
      · by_cases hlen : n ≤ rest.length
        · left
          have hlen2 : n + 1 ≤ (b :: rest).length := by simp; omega
          simp [Reader.readArray, BorrowReader.readArray, Reader.takeExact, hb,
            hlen, hlen2, Except.map, List.take_succ_cons, List.drop_succ_cons]
        · right
          have hlen2 : ¬ n + 1 ≤ (b :: rest).length := by simp; omega
          constructor <;>
            simp [Reader.readArray, BorrowReader.readArray, Reader.takeExact, hb,
              hlen, hlen2, Except.map]

/-- Claim C10 counterexample to the claimed same-error-kind contract: at the
empty input, `Reader::read_array` (hence all integer and float reads) reports
the truncation as an io error while `BorrowReader::read_array` reports
`UnexpectedEnd` — different kinds of `DecodeError`. -/
theorem c10_error_kind_counterexample :
    Reader.readArray 1 ([], false) = .error .io ∧
    BorrowReader.readArray 1 ([], false) = .error .unexpectedEnd ∧
    DErr.io ≠ DErr.unexpectedEnd := by
  exact ⟨rfl, rfl, by decide⟩

/-- Claim C10 amended: on every input and initial expect-escaped state, the
two readers agree exactly on `read_terminal`, `read_vec` and `read_string`
(same values, same consumption, same errors), and on the fixed-size reads
(`read_array` of any positive size, the integer reads, `read_f32`/`read_f64`)
they agree on every success — same value, same bytes consumed, same final
flag — while truncation errors surface as `Io(UnexpectedEof)` on `Reader`
versus `UnexpectedEnd` on `BorrowReader`. -/
theorem c10_reader_equivalence (inp : List Nat) (f : Bool) :
    Reader.readTerminal (inp, f) = BorrowReader.readTerminal (inp, f) ∧
    Reader.readVec (inp, f) = BorrowReader.readVec (inp, f) ∧
    Reader.readString (inp, f) = BorrowReader.readString (inp, f) ∧
    (∀ n : Nat, agreeUpToEof (Reader.readArray (n + 1) (inp, f))
      (BorrowReader.readArray (n + 1) (inp, f))) ∧
    (∀ w : Nat, agreeUpToEof (Reader.readUInt (w + 1) (inp, f))
      (BorrowReader.readUInt (w + 1) (inp, f))) ∧
    (∀ w : Nat, agreeUpToEof (Reader.readInt (w + 1) (inp, f))
      (BorrowReader.readInt (w + 1) (inp, f))) ∧
    agreeUpToEof (Reader.readF64 (inp, f)) (BorrowReader.readF64 (inp, f)) ∧
    agreeUpToEof (Reader.readF32 (inp, f)) (BorrowReader.readF32 (inp, f)) := by
  have hterm : Reader.readTerminal (inp, f) = BorrowReader.readTerminal (inp, f) := by
    rcases inp with _ | ⟨_ | b, rest⟩ <;> rfl
  have hvec := readVec_eq (inp, f)
  have harr := fun n => readArray_agree n inp f
  have huint : ∀ w : Nat, agreeUpToEof (Reader.readUInt (w + 1) (inp, f))
      (BorrowReader.readUInt (w + 1) (inp, f)) := by
    intro w
    exact agree_map _ (harr w)
  refine ⟨hterm, hvec, ?_, harr, huint, ?_, ?_, ?_⟩
  · rw [Reader.readString, BorrowReader.readString, hvec]
  · intro w
    exact agree_map _ (harr w)
  · exact agree_map _ (huint 7)
  · exact agree_map _ (huint 3)

end Storekey

